import Mathlib

/-!
Verification of the `HttpHeaders` class from
`src/packages/common/http/src/headers.ts`.

The class is a lazily materialized, copy-on-write multi-map from
case-insensitive header names to ordered lists of string values.  Two models
are developed:

* a pure value model (`HttpHeaders`, `mat`): collections are trees of
  constructor inputs plus queued updates, and `mat` computes the materialized
  pair of maps exactly as `init`, `copyFrom` and `applyUpdate` do, with the
  JavaScript arrays replaced by immutable lists;
* a heap model (namespace `Heap`): objects and arrays live in an explicit
  store, so that the reference sharing performed by `copyFrom`
  (`this.headers.set(key, other.headers.get(key))`) and the in-place
  `base.push(...value)` of `applyUpdate` are represented faithfully.
-/

/-- JavaScript `string | string[]` header values, as accepted by the
constructor record form and by `append` / `set` / `delete`. -/
inductive HVal where
  | str (s : String)
  | list (vs : List String)
deriving DecidableEq, Repr

/-- Coercion done by `applyUpdate` and the record initializer:
`if (typeof value === 'string') value = [value]`. -/
def hvalToList : HVal → List String
  | .str s => [s]
  | .list vs => vs

/-- The `Update` interface: `{name, value?, op: 'a'|'s'|'d'}`.  `append` and
`set` always supply a value; `delete` may omit it. -/
inductive Update where
  | a (name : String) (value : HVal)
  | s (name : String) (value : HVal)
  | d (name : String) (value : Option HVal)
deriving DecidableEq, Repr

/-- ASCII lowering, the behaviour of `name.toLowerCase()` on the header names
this code deals with. -/
def jsToLower (s : String) : String :=
  String.mk (s.data.map Char.toLower)

/-- Whitespace stripped by `String.prototype.trim`. -/
def jsWhitespaceChar (c : Char) : Bool :=
  c == ' ' || c == '\t' || c == '\n' || c == '\r' ||
  c == '\x0b' || c == '\x0c' || c == '\u00A0' || c == '\uFEFF'

/-- `value.trim()` on a list of characters. -/
def jsTrimChars (s : List Char) : List Char :=
  ((s.dropWhile jsWhitespaceChar).reverse.dropWhile jsWhitespaceChar).reverse

/-- `headers.split('\n')`: split into lines at every newline character. -/
def splitNl : List Char → List (List Char)
  | [] => [[]]
  | c :: cs =>
    if c == '\n' then [] :: splitNl cs
    else
      match splitNl cs with
      | [] => [[c]]
      | l :: ls => (c :: l) :: ls

/-- Decomposition performed by `line.indexOf(':')` together with
`line.slice(0, index)` and `line.slice(index + 1)`: the part before the first
colon and the part after it, or `none` when the line has no colon. -/
def splitAtFirstColon : List Char → Option (List Char × List Char)
  | [] => none
  | c :: cs =>
    if c == ':' then some ([], cs)
    else (splitAtFirstColon cs).map (fun p => (c :: p.1, p.2))

/-- Does `needle` start `hay`?  Helper for the substring test below. -/
def leadsWith : List Char → List Char → Bool
  | [], _ => true
  | _ :: _, [] => false
  | a :: as, b :: bs => a == b && leadsWith as bs

/-- Does `needle` occur contiguously inside `hay`?  This is the behaviour of
`hay.indexOf(needle) !== -1` for JavaScript strings. -/
def strOccursIn (needle : List Char) : List Char → Bool
  | [] => needle.isEmpty
  | c :: t => leadsWith needle (c :: t) || strOccursIn needle t

/-- The test `toDelete.indexOf(value) !== -1` in the `'d'` branch of
`applyUpdate`: substring occurrence when the filter is a string, element
membership when it is an array. -/
def hvalContainsVal : HVal → String → Bool
  | .str s, x => strOccursIn x.data s.data
  | .list l, x => l.contains x

/-- JavaScript truthiness of an `HVal`: the empty string is falsy, every
array (even the empty one) is truthy.  Used by `if (!toDelete)`. -/
def jsFalsyValue : HVal → Bool
  | .str s => s == ""
  | .list _ => false

/-- Insertion-ordered association map, the behaviour of a JavaScript `Map`
with string keys: `get` finds the first (only) binding. -/
def mapGet {α : Type} : List (String × α) → String → Option α
  | [], _ => none
  | p :: t, k => if p.1 = k then some p.2 else mapGet t k

/-- `Map.prototype.has`. -/
def mapHas {α : Type} (m : List (String × α)) (k : String) : Bool :=
  (mapGet m k).isSome

/-- `Map.prototype.set`: replace the binding in place when the key exists,
otherwise append a new binding at the end (insertion order). -/
def mapSet {α : Type} : List (String × α) → String → α → List (String × α)
  | [], k, v => [(k, v)]
  | p :: t, k, v => if p.1 = k then (k, v) :: mapSet t k v else p :: mapSet t k v

/-- `Map.prototype.delete`. -/
def mapDelete {α : Type} : List (String × α) → String → List (String × α)
  | [], _ => []
  | p :: t, k => if p.1 = k then mapDelete t k else p :: mapDelete t k

/-- The two internal maps of an initialized `HttpHeaders`:
`headers` (lowercase name to value list) and `normalizedNames`
(lowercase name to first-seen spelling). -/
structure HeaderState where
  headers : List (String × List String)
  normalizedNames : List (String × String)
deriving DecidableEq, Repr

/-- `maybeSetNormalizedName(name, lcName)`. -/
def maybeSetNormalizedName (names : List (String × String)) (name lcName : String) :
    List (String × String) :=
  if mapHas names lcName then names else mapSet names lcName name

/-- One line of the raw-string initializer in the constructor: split at the
first colon, skip the line unless the colon index is positive, lowercase the
name, trim the value, record the display name, append to or create the value
list. -/
def rawStep (st : HeaderState) (line : List Char) : HeaderState :=
  match splitAtFirstColon line with
  | some (nm, tail) =>
    if nm.length = 0 then st
    else
      let name := String.mk nm
      let key := jsToLower name
      let value := String.mk (jsTrimChars tail)
      let names := maybeSetNormalizedName st.normalizedNames name key
      match mapGet st.headers key with
      | some vs => ⟨mapSet st.headers key (vs ++ [value]), names⟩
      | none => ⟨mapSet st.headers key [value], names⟩
  | none => st

/-- The raw-string initializer: `headers.split('\n').forEach(...)`. -/
def rawParse (s : String) : HeaderState :=
  (splitNl s.data).foldl rawStep ⟨[], []⟩

/-- One entry of the record initializer: coerce the value to a list, skip
empty lists, set the value list and record the display name. -/
def recordStep (st : HeaderState) (entry : String × HVal) : HeaderState :=
  let key := jsToLower entry.1
  let values := hvalToList entry.2
  if values.length > 0 then
    { headers := mapSet st.headers key values,
      normalizedNames := maybeSetNormalizedName st.normalizedNames entry.1 key }
  else st

/-- The record initializer: `Object.keys(headers).forEach(...)`. -/
def recordParse (es : List (String × HVal)) : HeaderState :=
  es.foldl recordStep ⟨[], []⟩

/-- The shared `'a'` / `'s'` branch of `applyUpdate`; `isAppend` selects the
`base` expression `(update.op === 'a' ? this.headers.get(key) : undefined) || []`. -/
def applyAppendSet (st : HeaderState) (name : String) (v : HVal) (isAppend : Bool) :
    HeaderState :=
  let key := jsToLower name
  let value := hvalToList v
  if value.length = 0 then st
  else
    let names := maybeSetNormalizedName st.normalizedNames name key
    let base := (if isAppend then mapGet st.headers key else none).getD []
    ⟨mapSet st.headers key (base ++ value), names⟩

/-- Removal of a key from both maps, as done by the `'d'` branch. -/
def stDeleteKey (st : HeaderState) (key : String) : HeaderState :=
  ⟨mapDelete st.headers key, mapDelete st.normalizedNames key⟩

/-- `applyUpdate(update)` on the materialized maps.  In the `'d'` branch the
guard `if (!toDelete)` treats a missing filter and the empty string alike,
and `existing.filter(value => toDelete.indexOf(value) === -1)` keeps exactly
the values not contained in the filter. -/
def applyUpdate (st : HeaderState) (u : Update) : HeaderState :=
  match u with
  | .a name v => applyAppendSet st name v true
  | .s name v => applyAppendSet st name v false
  | .d name val =>
    let key := jsToLower name
    match val with
    | none => stDeleteKey st key
    | some tv =>
      if jsFalsyValue tv then stDeleteKey st key
      else
        match mapGet st.headers key with
        | none => st
        | some existing =>
          let kept := existing.filter (fun x => !(hvalContainsVal tv x))
          if kept = [] then stDeleteKey st key
          else ⟨mapSet st.headers key kept, st.normalizedNames⟩

/-- A header collection, as a value: one of the three constructor forms, or a
fork of a parent collection with a queue of pending updates (the shape built
by `clone`: `lazyInit` pointing at the base collection plus `lazyUpdate`). -/
inductive HttpHeaders where
  | emptyH
  | ofRawString (raw : String)
  | ofRecord (entries : List (String × HVal))
  | fork (parent : HttpHeaders) (updates : List Update)
deriving DecidableEq, Repr

/-- The materialized state reached by `init()`: run the initializer or copy
the parent, then replay the queued updates in order. -/
def mat : HttpHeaders → HeaderState
  | .emptyH => ⟨[], []⟩
  | .ofRawString s => rawParse s
  | .ofRecord es => recordParse es
  | .fork p ups => ups.foldl applyUpdate (mat p)

/-- `clone(update)`: the new collection keeps the ultimate base
(`this.lazyInit instanceof HttpHeaders ? this.lazyInit : this`) and the
queued updates extended by one
(`(this.lazyUpdate || []).concat([update])`). -/
def HttpHeaders.clone : HttpHeaders → Update → HttpHeaders
  | .fork parent ups, u => .fork parent (ups ++ [u])
  | h, u => .fork h [u]

/-- `append(name, value)`. -/
def HttpHeaders.append (h : HttpHeaders) (name : String) (value : HVal) : HttpHeaders :=
  h.clone (.a name value)

/-- `set(name, value)`. -/
def HttpHeaders.set (h : HttpHeaders) (name : String) (value : HVal) : HttpHeaders :=
  h.clone (.s name value)

/-- `delete(name, value?)`. -/
def HttpHeaders.delete (h : HttpHeaders) (name : String) (value : Option HVal) : HttpHeaders :=
  h.clone (.d name value)

/-- `has(name)`. -/
def HttpHeaders.has (h : HttpHeaders) (name : String) : Bool :=
  mapHas (mat h).headers (jsToLower name)

/-- `get(name)`: first value or `null` (`none`). -/
def HttpHeaders.get (h : HttpHeaders) (name : String) : Option String :=
  match mapGet (mat h).headers (jsToLower name) with
  | some values => if 0 < values.length then values.head? else none
  | none => none

/-- `getAll(name)`: the full value list or `null` (`none`). -/
def HttpHeaders.getAll (h : HttpHeaders) (name : String) : Option (List String) :=
  mapGet (mat h).headers (jsToLower name)

/-- `keys()`: `Array.from(this.normalizedNames.values())`. -/
def HttpHeaders.keys (h : HttpHeaders) : List String :=
  (mat h).normalizedNames.map Prod.snd

/-- `forEach(fn)`, as the list of pairs the callback is invoked with:
display name and value list, one per key of `normalizedNames`. -/
def HttpHeaders.forEachPairs (h : HttpHeaders) : List (String × List String) :=
  (mat h).normalizedNames.map
    (fun kv => (kv.2, (mapGet (mat h).headers kv.1).getD []))

/-! ### The state invariant -/

/-- Well-formedness of a materialized state: the two maps have the same key
set, and no value list stored in `headers` is empty. -/
def WFmaps (st : HeaderState) : Prop :=
  (∀ k, mapHas st.headers k = mapHas st.normalizedNames k) ∧
  (∀ p ∈ st.headers, p.2 ≠ [])

/-! ### Raw parsing, restated from the specification wording (claim C3) -/

/-- Stated from the specification wording: split a line at its first colon,
giving the name part and the colon-trailing part, or nothing when the line
has no colon. -/
def specSplitLine (line : List Char) : Option (List Char × List Char) :=
  match line.dropWhile (fun c => !(c == ':')) with
  | [] => none
  | _ :: tail => some (line.takeWhile (fun c => !(c == ':')), tail)

/-- One parsed line, stated from the specification wording: ignore the line
when it has no colon or an empty name before the colon; otherwise use the
lowercased name part as key and the trimmed colon-trailing part as value,
append the value to those already seen for the key (line order), and record
the first-seen spelling of the name for display. -/
def specRawStep (st : HeaderState) (line : List Char) : HeaderState :=
  match specSplitLine line with
  | none => st
  | some (nm, tail) =>
    if nm.length = 0 then st
    else
      let name := String.mk nm
      let key := jsToLower name
      let value := String.mk (jsTrimChars tail)
      let prior := (mapGet st.headers key).getD []
      ⟨mapSet st.headers key (prior ++ [value]),
       maybeSetNormalizedName st.normalizedNames name key⟩

/-- The whole raw parse, stated from the specification wording. -/
def rawParseSpec (s : String) : HeaderState :=
  (splitNl s.data).foldl specRawStep ⟨[], []⟩

/-! ### Heap model: objects and arrays with reference sharing -/

namespace Heap

/-- The pending initialization of an object: a parent object (by reference),
the raw-string closure, or the record closure. -/
inductive LazySrc where
  | fromParent (i : Nat)
  | fromRaw (s : String)
  | fromPairs (es : List (String × HVal))
deriving DecidableEq, Repr

/-- The mutable fields of one `HttpHeaders` object.  `headers` maps lowercase
names to array references (indices into the array store of the world). -/
structure HObj where
  headers : List (String × Nat)
  normalizedNames : List (String × String)
  lazyInit : Option LazySrc
  lazyUpdate : Option (List Update)
deriving DecidableEq, Repr

instance : Inhabited HObj := ⟨⟨[], [], none, none⟩⟩

/-- The store: allocated objects and allocated string arrays. -/
structure World where
  objs : List HObj
  arrs : List (List String)
deriving DecidableEq, Repr

def getArr (w : World) (i : Nat) : List String := (w.arrs.get? i).getD []

def setArr (w : World) (i : Nat) (v : List String) : World :=
  { w with arrs := w.arrs.set i v }

/-- `base.push(...value)`: in-place extension of the array at reference `i`,
visible through every object holding this reference. -/
def pushArr (w : World) (i : Nat) (vs : List String) : World :=
  setArr w i (getArr w i ++ vs)

def allocArr (w : World) (v : List String) : World × Nat :=
  ({ w with arrs := w.arrs ++ [v] }, w.arrs.length)

def getObj (w : World) (i : Nat) : HObj := (w.objs.get? i).getD default

def setObj (w : World) (i : Nat) (o : HObj) : World :=
  { w with objs := w.objs.set i o }

def allocObj (w : World) (o : HObj) : World × Nat :=
  ({ w with objs := w.objs ++ [o] }, w.objs.length)

/-- `new HttpHeaders(headers?)`.  An absent (or falsy, e.g. empty-string)
argument takes the eager branch `this.headers = new Map()`; otherwise the
parse or copy is deferred into `lazyInit`. -/
def newHttpHeaders (w : World) (input : Option (Sum String (List (String × HVal)))) :
    World × Nat :=
  match input with
  | none => allocObj w ⟨[], [], none, none⟩
  | some (.inl s) =>
    if s = "" then allocObj w ⟨[], [], none, none⟩
    else allocObj w ⟨[], [], some (.fromRaw s), none⟩
  | some (.inr es) => allocObj w ⟨[], [], some (.fromPairs es), none⟩

/-- `maybeSetNormalizedName` on an object. -/
def maybeSetName (o : HObj) (name key : String) : HObj :=
  if mapHas o.normalizedNames key then o
  else { o with normalizedNames := mapSet o.normalizedNames key name }

/-- `applyUpdate(update)` in the heap model.  In the append branch with an
existing key, `base` is the stored array reference and `base.push(...value)`
writes through it, so an array shared with another object is extended for
both holders. -/
def applyUpdateOp (w : World) (i : Nat) (u : Update) : World :=
  let o := getObj w i
  match u with
  | .a name v =>
    let key := jsToLower name
    let vs := hvalToList v
    if vs.length = 0 then w
    else
      let o := maybeSetName o name key
      match mapGet o.headers key with
      | some aid =>
        setObj (pushArr w aid vs) i { o with headers := mapSet o.headers key aid }
      | none =>
        let wa := allocArr w vs
        setObj wa.1 i { o with headers := mapSet o.headers key wa.2 }
  | .s name v =>
    let key := jsToLower name
    let vs := hvalToList v
    if vs.length = 0 then w
    else
      let o := maybeSetName o name key
      let wa := allocArr w vs
      setObj wa.1 i { o with headers := mapSet o.headers key wa.2 }
  | .d name val =>
    let key := jsToLower name
    match val with
    | none =>
      setObj w i { o with headers := mapDelete o.headers key,
                          normalizedNames := mapDelete o.normalizedNames key }
    | some tv =>
      if jsFalsyValue tv then
        setObj w i { o with headers := mapDelete o.headers key,
                            normalizedNames := mapDelete o.normalizedNames key }
      else
        match mapGet o.headers key with
        | none => w
        | some aid =>
          let kept := (getArr w aid).filter (fun x => !(hvalContainsVal tv x))
          if kept = [] then
            setObj w i { o with headers := mapDelete o.headers key,
                                normalizedNames := mapDelete o.normalizedNames key }
          else
            let wa := allocArr w kept
            setObj wa.1 i { o with headers := mapSet o.headers key wa.2 }

/-- One line of the raw-string closure: fresh arrays are allocated per key,
then extended in place for repeated keys. -/
def rawLineOp (wo : World × HObj) (line : List Char) : World × HObj :=
  match splitAtFirstColon line with
  | some (nm, tail) =>
    if nm.length = 0 then wo
    else
      let name := String.mk nm
      let key := jsToLower name
      let value := String.mk (jsTrimChars tail)
      let o := maybeSetName wo.2 name key
      match mapGet o.headers key with
      | some aid => (pushArr wo.1 aid [value], o)
      | none =>
        let wa := allocArr wo.1 [value]
        (wa.1, { o with headers := mapSet o.headers key wa.2 })
  | none => wo

/-- One entry of the record closure. -/
def recordEntryOp (wo : World × HObj) (entry : String × HVal) : World × HObj :=
  let key := jsToLower entry.1
  let values := hvalToList entry.2
  if values.length > 0 then
    let wa := allocArr wo.1 values
    let o := { wo.2 with headers := mapSet wo.2.headers key wa.2 }
    (wa.1, maybeSetName o entry.1 key)
  else wo

/-- `copyFrom(other)`: copy both maps entry by entry.  The array references
stored in `headers` are shared between the two objects afterwards. -/
def copyFromOp (w : World) (i other : Nat) : World :=
  let po := getObj w other
  let o := (getObj w i)
  let o := po.headers.foldl
    (fun o kv =>
      { o with headers := mapSet o.headers kv.1 kv.2,
               normalizedNames :=
                 mapSet o.normalizedNames kv.1
                   ((mapGet po.normalizedNames kv.1).getD "") }) o
  setObj w i o

/-- `init()`: a no-op when `lazyInit` is cleared; otherwise force the parent
(recursively) and copy from it, or run the deferred closure, then replay the
queued updates and clear both fields.  `fuel` bounds the parent-chain depth;
parents are always allocated before their forks, so any fuel larger than the
object count is enough, and the concrete traces below use a fixed fuel. -/
def initOp : Nat → World → Nat → World
  | 0, w, _ => w
  | fuel + 1, w, i =>
    let o := getObj w i
    match o.lazyInit with
    | none => w
    | some src =>
      let w1 :=
        match src with
        | .fromParent p => copyFromOp (initOp fuel w p) i p
        | .fromRaw s =>
          let wo := (splitNl s.data).foldl rawLineOp (w, { o with headers := [] })
          setObj wo.1 i wo.2
        | .fromPairs es =>
          let wo := es.foldl recordEntryOp (w, { o with headers := [] })
          setObj wo.1 i wo.2
      let o2 := getObj w1 i
      let w2 := setObj w1 i { o2 with lazyInit := none }
      let o3 := getObj w2 i
      match o3.lazyUpdate with
      | some us =>
        let w3 := us.foldl (fun w u => applyUpdateOp w i u) w2
        let o4 := getObj w3 i
        setObj w3 i { o4 with lazyUpdate := none }
      | none => w2

/-- `has(name)` with the world it leaves behind. -/
def hasOp (fuel : Nat) (w : World) (i : Nat) (name : String) : World × Bool :=
  let w1 := initOp fuel w i
  (w1, mapHas (getObj w1 i).headers (jsToLower name))

/-- `getAll(name)` with the world it leaves behind; the observable value of
the returned array reference is its current content. -/
def getAllOp (fuel : Nat) (w : World) (i : Nat) (name : String) :
    World × Option (List String) :=
  let w1 := initOp fuel w i
  (w1, (mapGet (getObj w1 i).headers (jsToLower name)).map (getArr w1))

/-- `clone(update)`: allocate a fresh object whose pending source is the
ultimate base of the receiver and whose queue is the receiver queue plus one
update. -/
def cloneOp (w : World) (i : Nat) (u : Update) : World × Nat :=
  let o := getObj w i
  let src : LazySrc :=
    match o.lazyInit with
    | some (.fromParent p) => .fromParent p
    | _ => .fromParent i
  allocObj w ⟨[], [], some src, some ((o.lazyUpdate.getD []) ++ [u])⟩

/-- `append(name, value)` in the heap model. -/
def appendOp (w : World) (i : Nat) (name : String) (v : HVal) : World × Nat :=
  cloneOp w i (.a name v)

end Heap

/-! ### Lemmas -/

/-! ### Basic lemmas about the map operations -/

theorem mapGet_mapSet_self {α : Type} (m : List (String × α)) (k : String) (v : α) :
    mapGet (mapSet m k v) k = some v := by
  induction m with
  | nil => simp [mapSet, mapGet]
  | cons p t ih =>
    by_cases h : p.1 = k
    · simp [mapSet, h, mapGet]
    · simp [mapSet, h, mapGet, ih]

theorem mapGet_mapSet_ne {α : Type} (m : List (String × α)) (k k' : String) (v : α)
    (h : k' ≠ k) : mapGet (mapSet m k v) k' = mapGet m k' := by
  induction m with
  | nil => simp [mapSet, mapGet, Ne.symm h]
  | cons p t ih =>
    by_cases hp : p.1 = k
    · simp [mapSet, hp, mapGet, Ne.symm h, ih]
    · simp only [mapSet, if_neg hp, mapGet]
      by_cases hp' : p.1 = k' <;> simp [hp', ih]

theorem mapGet_mapDelete_self {α : Type} (m : List (String × α)) (k : String) :
    mapGet (mapDelete m k) k = none := by
  induction m with
  | nil => simp [mapDelete, mapGet]
  | cons p t ih =>
    by_cases hp : p.1 = k
    · simp [mapDelete, hp, ih]
    · simp [mapDelete, hp, mapGet, ih]

theorem mapGet_mapDelete_ne {α : Type} (m : List (String × α)) (k k' : String)
    (h : k' ≠ k) : mapGet (mapDelete m k) k' = mapGet m k' := by
  induction m with
  | nil => simp [mapDelete]
  | cons p t ih =>
    by_cases hp : p.1 = k
    · rw [mapDelete, if_pos hp, ih]
      simp [mapGet, show ¬ p.1 = k' from fun hh => h (hh.symm.trans hp)]
    · simp only [mapDelete, if_neg hp, mapGet]
      by_cases hp' : p.1 = k' <;> simp [hp', ih]

theorem mapDelete_of_get_none {α : Type} (m : List (String × α)) (k : String)
    (h : mapGet m k = none) : mapDelete m k = m := by
  induction m with
  | nil => rfl
  | cons p t ih =>
    by_cases hp : p.1 = k
    · rw [mapGet, if_pos hp] at h; exact absurd h (by simp)
    · rw [mapGet, if_neg hp] at h
      rw [mapDelete, if_neg hp, ih h]

theorem mem_of_mem_mapSet {α : Type} {m : List (String × α)} {k : String} {v : α}
    {p : String × α} (h : p ∈ mapSet m k v) : p = (k, v) ∨ p ∈ m := by
  induction m with
  | nil => simp [mapSet] at h; exact .inl h
  | cons q t ih =>
    by_cases hq : q.1 = k
    · rw [mapSet, if_pos hq] at h
      rcases List.mem_cons.mp h with h | h
      · exact .inl h
      · rcases ih h with h | h
        · exact .inl h
        · exact .inr (List.mem_cons_of_mem _ h)
    · rw [mapSet, if_neg hq] at h
      rcases List.mem_cons.mp h with h | h
      · exact .inr (h ▸ List.mem_cons_self _ _)
      · rcases ih h with h | h
        · exact .inl h
        · exact .inr (List.mem_cons_of_mem _ h)

theorem mem_of_mem_mapDelete {α : Type} {m : List (String × α)} {k : String}
    {p : String × α} (h : p ∈ mapDelete m k) : p ∈ m := by
  induction m with
  | nil => simp [mapDelete] at h
  | cons q t ih =>
    by_cases hq : q.1 = k
    · rw [mapDelete, if_pos hq] at h
      exact List.mem_cons_of_mem _ (ih h)
    · rw [mapDelete, if_neg hq] at h
      rcases List.mem_cons.mp h with h | h
      · exact h ▸ List.mem_cons_self _ _
      · exact List.mem_cons_of_mem _ (ih h)

theorem mapHas_mapSet_self {α : Type} (m : List (String × α)) (k : String) (v : α) :
    mapHas (mapSet m k v) k = true := by
  simp [mapHas, mapGet_mapSet_self]

theorem mapHas_mapSet_ne {α : Type} (m : List (String × α)) (k k' : String) (v : α)
    (h : k' ≠ k) : mapHas (mapSet m k v) k' = mapHas m k' := by
  simp [mapHas, mapGet_mapSet_ne m k k' v h]

theorem mapHas_mapDelete_self {α : Type} (m : List (String × α)) (k : String) :
    mapHas (mapDelete m k) k = false := by
  simp [mapHas, mapGet_mapDelete_self]

theorem mapHas_mapDelete_ne {α : Type} (m : List (String × α)) (k k' : String)
    (h : k' ≠ k) : mapHas (mapDelete m k) k' = mapHas m k' := by
  simp [mapHas, mapGet_mapDelete_ne m k k' h]

theorem wf_empty : WFmaps ⟨[], []⟩ :=
  ⟨fun _ => rfl, fun p hp => absurd hp (List.not_mem_nil p)⟩

theorem WFmaps.setBoth {st : HeaderState} (wf : WFmaps st) (name key : String)
    (L : List String) (hL : L ≠ []) :
    WFmaps ⟨mapSet st.headers key L,
            maybeSetNormalizedName st.normalizedNames name key⟩ := by
  constructor
  · intro k
    by_cases hk : k = key
    · subst hk
      rw [mapHas_mapSet_self]
      unfold maybeSetNormalizedName
      by_cases hn : mapHas st.normalizedNames k
      · simp [hn]
      · simp [hn, mapHas_mapSet_self]
    · rw [mapHas_mapSet_ne _ _ _ _ hk]
      unfold maybeSetNormalizedName
      by_cases hn : mapHas st.normalizedNames key
      · simp [hn, wf.1 k]
      · simp [hn, mapHas_mapSet_ne _ _ _ _ hk, wf.1 k]
  · intro p hp
    rcases mem_of_mem_mapSet hp with h | h
    · rw [h]; exact hL
    · exact wf.2 p h

theorem WFmaps.deleteKey {st : HeaderState} (wf : WFmaps st) (key : String) :
    WFmaps (stDeleteKey st key) := by
  constructor
  · intro k
    by_cases hk : k = key
    · subst hk
      simp [stDeleteKey, mapHas_mapDelete_self]
    · simp [stDeleteKey, mapHas_mapDelete_ne _ _ _ hk, wf.1 k]
  · intro p hp
    simp only [stDeleteKey] at hp
    exact wf.2 p (mem_of_mem_mapDelete hp)

theorem WFmaps.setExisting {st : HeaderState} (wf : WFmaps st) (key : String)
    (L : List String) (hL : L ≠ []) (hhas : mapHas st.headers key = true) :
    WFmaps ⟨mapSet st.headers key L, st.normalizedNames⟩ := by
  constructor
  · intro k
    by_cases hk : k = key
    · subst hk
      rw [mapHas_mapSet_self]
      exact (hhas ▸ wf.1 k).symm.symm
    · rw [mapHas_mapSet_ne _ _ _ _ hk]
      exact wf.1 k
  · intro p hp
    rcases mem_of_mem_mapSet hp with h | h
    · rw [h]; exact hL
    · exact wf.2 p h

theorem wf_applyUpdate {st : HeaderState} (wf : WFmaps st) (u : Update) :
    WFmaps (applyUpdate st u) := by
  cases u with
  | a name v =>
    simp only [applyUpdate, applyAppendSet]
    by_cases hv : (hvalToList v).length = 0
    · simpa [hv] using wf
    · have hne : hvalToList v ≠ [] := fun hh => hv (by rw [hh]; rfl)
      rw [if_neg hv]
      exact wf.setBoth name (jsToLower name) _
        (fun hh => hne (List.append_eq_nil.mp hh).2)
  | s name v =>
    simp only [applyUpdate, applyAppendSet]
    by_cases hv : (hvalToList v).length = 0
    · simpa [hv] using wf
    · have hne : hvalToList v ≠ [] := fun hh => hv (by rw [hh]; rfl)
      rw [if_neg hv]
      simp only [Bool.false_eq_true, if_false, Option.getD_none, List.nil_append]
      exact wf.setBoth name (jsToLower name) _ hne
  | d name val =>
    simp only [applyUpdate]
    split
    · exact wf.deleteKey (jsToLower name)
    · split
      · exact wf.deleteKey (jsToLower name)
      · split
        · exact wf
        · next existing hmg =>
          split
          · exact wf.deleteKey (jsToLower name)
          · next hk =>
            exact wf.setExisting (jsToLower name) _ hk (by simp [mapHas, hmg])

theorem foldl_preserve {β : Type} {P : HeaderState → Prop}
    (f : HeaderState → β → HeaderState)
    (hf : ∀ st b, P st → P (f st b)) :
    ∀ (l : List β) (st : HeaderState), P st → P (l.foldl f st) := by
  intro l
  induction l with
  | nil => exact fun st h => h
  | cons b t ih => exact fun st h => ih _ (hf st b h)

theorem wf_rawStep (st : HeaderState) (line : List Char) (wf : WFmaps st) :
    WFmaps (rawStep st line) := by
  simp only [rawStep]
  split
  · split
    · exact wf
    · split
      · exact wf.setBoth _ _ _ (fun hh => by simp at hh)
      · exact wf.setBoth _ _ _ (fun hh => by simp at hh)
  · exact wf

theorem wf_recordStep (st : HeaderState) (entry : String × HVal) (wf : WFmaps st) :
    WFmaps (recordStep st entry) := by
  simp only [recordStep]
  by_cases hv : (hvalToList entry.2).length > 0
  · rw [if_pos hv]
    exact wf.setBoth _ _ _ (fun hh => by rw [hh] at hv; exact absurd hv (by simp))
  · simpa [hv] using wf

theorem wf_mat : ∀ h : HttpHeaders, WFmaps (mat h)
  | .emptyH => wf_empty
  | .ofRawString s =>
    foldl_preserve rawStep wf_rawStep (splitNl s.data) _ wf_empty
  | .ofRecord es =>
    foldl_preserve recordStep wf_recordStep es _ wf_empty
  | .fork p ups => by
    show WFmaps (ups.foldl applyUpdate (mat p))
    exact @foldl_preserve Update WFmaps applyUpdate (fun st u hw => wf_applyUpdate hw u) ups (mat p) (wf_mat p)

/-- `clone` queues one more update on the ultimate base; materializing the
result is materializing the receiver and applying the update. -/
theorem mat_clone (h : HttpHeaders) (u : Update) :
    mat (h.clone u) = applyUpdate (mat h) u := by
  cases h with
  | fork p ups => simp [HttpHeaders.clone, mat, List.foldl_append]
  | emptyH => rfl
  | ofRawString s => rfl
  | ofRecord es => rfl

theorem splitAtFirstColon_eq_spec (line : List Char) :
    splitAtFirstColon line = specSplitLine line := by
  induction line with
  | nil => rfl
  | cons c cs ih =>
    by_cases hc : c == ':'
    · simp [splitAtFirstColon, specSplitLine, hc, List.dropWhile_cons,
        List.takeWhile_cons]
    · rw [splitAtFirstColon, if_neg (by simpa using hc), ih]
      simp only [specSplitLine, List.dropWhile_cons, List.takeWhile_cons, hc,
        Bool.not_false, if_true]
      cases hd : List.dropWhile (fun c => !(c == ':')) cs with
      | nil => simp
      | cons a tail => simp

theorem rawStep_eq_spec (st : HeaderState) (line : List Char) :
    rawStep st line = specRawStep st line := by
  rw [rawStep, specRawStep, splitAtFirstColon_eq_spec]
  cases specSplitLine line with
  | none => rfl
  | some p =>
    obtain ⟨nm, tail⟩ := p
    by_cases hn : nm.length = 0
    · simp [hn]
    · cases hm : mapGet st.headers (jsToLower (String.mk nm)) with
      | none => simp [hn, hm]
      | some vs => simp [hn, hm]

theorem rawParse_eq_spec (s : String) : rawParse s = rawParseSpec s := by
  have hstep : rawStep = specRawStep :=
    funext fun st => funext fun line => rawStep_eq_spec st line
  rw [rawParse, rawParseSpec, hstep]


theorem mem_of_mapGet_eq_some {α : Type} {m : List (String × α)} {k : String} {v : α}
    (h : mapGet m k = some v) : (k, v) ∈ m := by
  induction m with
  | nil => simp [mapGet] at h
  | cons p t ih =>
    by_cases hp : p.1 = k
    · rw [mapGet, if_pos hp] at h
      obtain rfl : p.2 = v := by injection h
      exact (show p = (k, p.2) from Prod.ext hp rfl) ▸ List.mem_cons_self _ _
    · rw [mapGet, if_neg hp] at h
      exact List.mem_cons_of_mem _ (ih h)

/-! ### The claims -/

/-- Claim C10: a raw line with a colon at a positive index but an empty or
whitespace-only value part is not skipped; it yields a key whose value list
holds the empty string, so `has` is true and `get` returns the empty string
rather than an absent result. -/
theorem C10_colon_with_empty_value :
    (HttpHeaders.ofRawString "X-Foo:").has "x-foo" = true ∧
    (HttpHeaders.ofRawString "X-Foo:").get "x-foo" = some "" ∧
    (HttpHeaders.ofRawString "X-Foo:   ").has "x-foo" = true ∧
    (HttpHeaders.ofRawString "X-Foo:   ").get "x-foo" = some "" ∧
    (HttpHeaders.ofRawString "X-Foo:").getAll "x-foo" = some [""] := by
  decide

/-- Claim C3: raw-string construction parses newline-separated lines, split
at the first colon, lowercased name as key, trimmed colon-trailing part as
value; lines with no colon or an empty name are ignored; repeated
(case-insensitive) names append in line order; the first-seen spelling is
kept for display.  The general clause is the agreement of the source parser
with `rawParseSpec`, the parser restated from the specification wording; the
remaining clauses are the quoted example and one probe for each of the
ignore, append-in-order and first-seen-spelling clauses. -/
theorem C3_raw_parsing :
    (∀ s : String, rawParse s = rawParseSpec s) ∧
    (HttpHeaders.ofRawString "Content-Type: application/json\nX-Foo: a").get
      "content-type" = some "application/json" ∧
    (HttpHeaders.ofRawString "Content-Type: application/json\nX-Foo: a").getAll
      "x-foo" = some ["a"] ∧
    (HttpHeaders.ofRawString "Content-Type: application/json\nX-Foo: a").keys
      = ["Content-Type", "X-Foo"] ∧
    (HttpHeaders.ofRawString "A: 1\na: 2\nno colon\n:empty").getAll "a"
      = some ["1", "2"] ∧
    (HttpHeaders.ofRawString "A: 1\na: 2\nno colon\n:empty").keys = ["A"] :=
  ⟨rawParse_eq_spec, by decide, by decide, by decide, by decide, by decide⟩

/-- Claim C4: every reachable collection satisfies the state invariant: the
value map and the display-name map have exactly the same key set, and every
stored value list is non-empty. -/
theorem C4_maps_in_sync :
    ∀ h : HttpHeaders,
      (∀ k, mapHas (mat h).headers k = mapHas (mat h).normalizedNames k) ∧
      (∀ p ∈ (mat h).headers, p.2 ≠ []) :=
  fun h => wf_mat h

/-- Witness for C4 at a concrete collection and key. -/
theorem C4_maps_in_sync_witness :
    mapHas (mat (.ofRawString "A: 1")).headers "a" =
      mapHas (mat (.ofRawString "A: 1")).normalizedNames "a" ∧
    ["1"] ≠ ([] : List String) :=
  ⟨(C4_maps_in_sync (.ofRawString "A: 1")).1 "a",
   (C4_maps_in_sync (.ofRawString "A: 1")).2 ("a", ["1"]) (by decide)⟩

/-- Claim C7: `set` with an empty value list is a no-op: the materialized
state is unchanged, hence every read of every name is unchanged (prior
values are left intact, not cleared). -/
theorem C7_set_empty_list_noop :
    ∀ (h : HttpHeaders) (name : String),
      mat (h.set name (.list [])) = mat h ∧
      (∀ m, (h.set name (.list [])).getAll m = h.getAll m) ∧
      (∀ m, (h.set name (.list [])).get m = h.get m) ∧
      (∀ m, (h.set name (.list [])).has m = h.has m) ∧
      (h.set name (.list [])).keys = h.keys := by
  intro h name
  have hmat : mat (h.set name (.list [])) = mat h := by
    rw [HttpHeaders.set, mat_clone]
    rfl
  exact ⟨hmat,
    fun m => by simp only [HttpHeaders.getAll, hmat],
    fun m => by simp only [HttpHeaders.get, hmat],
    fun m => by simp only [HttpHeaders.has, hmat],
    by simp only [HttpHeaders.keys, hmat]⟩

/-- Claim C8: lookups are case-insensitive: names with equal lowercasings
are indistinguishable under `has`, `get` and `getAll`. -/
theorem C8_case_insensitive_reads :
    ∀ (h : HttpHeaders) (n1 n2 : String), jsToLower n1 = jsToLower n2 →
      h.has n1 = h.has n2 ∧ h.get n1 = h.get n2 ∧ h.getAll n1 = h.getAll n2 := by
  intro h n1 n2 he
  exact ⟨by simp only [HttpHeaders.has, he],
         by simp only [HttpHeaders.get, he],
         by simp only [HttpHeaders.getAll, he]⟩

/-- Witness for C8: the quoted example pair of spellings on a concrete
collection. -/
theorem C8_case_insensitive_reads_witness :
    (HttpHeaders.ofRawString "Content-Type: application/json").has "content-type" =
      (HttpHeaders.ofRawString "Content-Type: application/json").has "Content-Type" ∧
    (HttpHeaders.ofRawString "Content-Type: application/json").get "content-type" =
      (HttpHeaders.ofRawString "Content-Type: application/json").get "Content-Type" ∧
    (HttpHeaders.ofRawString "Content-Type: application/json").getAll "content-type" =
      (HttpHeaders.ofRawString "Content-Type: application/json").getAll "Content-Type" :=
  C8_case_insensitive_reads (.ofRawString "Content-Type: application/json")
    "content-type" "Content-Type" (by decide)

/-- Claim C5: for a non-empty value, `set` followed by `getAll` returns
exactly the new value list (a single string as a one-element list), `get`
returns its first element, and prior values for the key are discarded. -/
theorem C5_set_replaces (h : HttpHeaders) (name : String) (v : HVal)
    (hv : hvalToList v ≠ []) :
    (h.set name v).getAll name = some (hvalToList v) ∧
    (h.set name v).get name = (hvalToList v).head? := by
  have hlen : ¬ (hvalToList v).length = 0 := by
    simpa [List.length_eq_zero] using hv
  have hmat : mat (h.set name v) =
      ⟨mapSet (mat h).headers (jsToLower name) (hvalToList v),
       maybeSetNormalizedName (mat h).normalizedNames name (jsToLower name)⟩ := by
    rw [HttpHeaders.set, mat_clone]
    simp [applyUpdate, applyAppendSet, hlen]
  constructor
  · rw [HttpHeaders.getAll, hmat]
    exact mapGet_mapSet_self _ _ _
  · have hp : 0 < (hvalToList v).length := List.length_pos.mpr hv
    simp [HttpHeaders.get, hmat, mapGet_mapSet_self, hp]

/-- Witness for C5 on a concrete collection with prior values for the key. -/
theorem C5_set_replaces_witness :
    ((HttpHeaders.ofRecord [("A", .list ["old1", "old2"])]).set "A" (.str "new")).getAll
      "A" = some (hvalToList (.str "new")) ∧
    ((HttpHeaders.ofRecord [("A", .list ["old1", "old2"])]).set "A" (.str "new")).get
      "A" = (hvalToList (.str "new")).head? :=
  C5_set_replaces (.ofRecord [("A", .list ["old1", "old2"])]) "A" (.str "new")
    (by decide)

/-- Claim C6 fails as stated: with an empty value list and an absent key,
`append` leaves the key absent, so `getAll` returns an absent result and not
the empty list the claim derives.  This is the negation of the claim at that
input. -/
theorem C6_claim_counterexample :
    ¬ ((HttpHeaders.emptyH.append "A" (.list [])).getAll "A" =
        some ((HttpHeaders.emptyH.getAll "A").getD [] ++ hvalToList (.list []))) := by
  decide

/-- Claim C6 (amended): provided the appended value list is non-empty,
`getAll` on the result of `append` returns the receiver values (empty if the
key was absent) followed by the appended values, in order; the quoted
example holds.  (An empty value list leaves the collection unchanged, so an
absent key stays absent.) -/
theorem C6_append_concatenates :
    (∀ (h : HttpHeaders) (name : String) (v : HVal), hvalToList v ≠ [] →
      (h.append name v).getAll name =
        some ((h.getAll name).getD [] ++ hvalToList v)) ∧
    ((HttpHeaders.emptyH.append "A" (.str "1")).append "A" (.str "2")).getAll "a" =
      some ["1", "2"] := by
  constructor
  · intro h name v hv
    have hlen : ¬ (hvalToList v).length = 0 := by
      simpa [List.length_eq_zero] using hv
    have hmat : mat (h.append name v) =
        ⟨mapSet (mat h).headers (jsToLower name)
           ((mapGet (mat h).headers (jsToLower name)).getD [] ++ hvalToList v),
         maybeSetNormalizedName (mat h).normalizedNames name (jsToLower name)⟩ := by
      rw [HttpHeaders.append, mat_clone]
      simp [applyUpdate, applyAppendSet, hlen]
    rw [HttpHeaders.getAll, hmat, mapGet_mapSet_self]
    rfl
  · decide

/-- Witness for the amended C6 on a collection with prior values. -/
theorem C6_append_concatenates_witness :
    ((HttpHeaders.emptyH.set "B" (.str "0")).append "B" (.str "1")).getAll "B" =
      some (((HttpHeaders.emptyH.set "B" (.str "0")).getAll "B").getD []
        ++ hvalToList (.str "1")) :=
  C6_append_concatenates.1 (HttpHeaders.emptyH.set "B" (.str "0")) "B" (.str "1")
    (by decide)

/-- Claim C2 fails as stated: `toDelete.indexOf(value) === -1` is a
substring test when the filter is a string, so entries different from the
filter are removed whenever they occur inside it.  Below no entry equals
"ab", so the claim predicts that nothing is removed, yet the code removes
"b". -/
theorem C2_claim_counterexample :
    ((HttpHeaders.ofRecord [("A", .list ["b", "c"])]).delete "A"
        (some (.str "ab"))).getAll "a" = some ["c"] ∧
    ¬ (some (["b", "c"].filter (fun x => !(x == "ab"))) = some ["c"]) := by
  decide

/-- Claim C2 (amended): for a non-empty single-string filter `v`,
`delete(name, v)` removes from the list of the lowercased name exactly those
entries that occur as substrings of `v` (in particular every entry equal to
`v`), preserving the order of the remaining values; if the resulting list is
empty the key and its display-name entry are removed entirely; if the key
did not exist the operation is a no-op; other keys are unaffected.  (With an
empty-string filter the code instead takes the unfiltered branch and removes
the key, which the non-empty hypothesis excludes.) -/
theorem C2_delete_filters_substrings :
    ∀ (h : HttpHeaders) (name v : String), v ≠ "" →
      ((h.delete name (some (.str v))).getAll name =
        (match h.getAll name with
         | none => none
         | some vs =>
           let kept := vs.filter (fun x => !(strOccursIn x.data v.data))
           if kept = [] then none else some kept)) ∧
      (∀ m, jsToLower m ≠ jsToLower name →
        (h.delete name (some (.str v))).getAll m = h.getAll m) ∧
      (h.getAll name = none → mat (h.delete name (some (.str v))) = mat h) ∧
      (∀ vs, h.getAll name = some vs →
        (mat (h.delete name (some (.str v)))).normalizedNames =
          (if vs.filter (fun x => !(strOccursIn x.data v.data)) = [] then
            mapDelete (mat h).normalizedNames (jsToLower name)
           else (mat h).normalizedNames)) := by
  intro h name v hv
  have hfal : jsFalsyValue (.str v) = false := by
    simp [jsFalsyValue, hv]
  have hmat : mat (h.delete name (some (.str v))) =
      (match mapGet (mat h).headers (jsToLower name) with
       | none => mat h
       | some existing =>
         if existing.filter (fun x => !(strOccursIn x.data v.data)) = [] then
           stDeleteKey (mat h) (jsToLower name)
         else
           ⟨mapSet (mat h).headers (jsToLower name)
              (existing.filter (fun x => !(strOccursIn x.data v.data))),
            (mat h).normalizedNames⟩) := by
    rw [HttpHeaders.delete, mat_clone]
    simp [applyUpdate, hfal, hvalContainsVal]
  cases hg : mapGet (mat h).headers (jsToLower name) with
  | none =>
    rw [hg] at hmat
    refine ⟨?_, ?_, ?_, ?_⟩
    · simp only [HttpHeaders.getAll]
      rw [hmat, hg]
    · intro m hm
      simp only [HttpHeaders.getAll]
      rw [hmat]
    · intro _
      exact hmat
    · intro vs hvs
      rw [HttpHeaders.getAll, hg] at hvs
      exact absurd hvs (by simp)
  | some existing =>
    rw [hg] at hmat
    have hmat2 : mat (h.delete name (some (.str v))) =
        (if existing.filter (fun x => !(strOccursIn x.data v.data)) = [] then
           stDeleteKey (mat h) (jsToLower name)
         else
           ⟨mapSet (mat h).headers (jsToLower name)
              (existing.filter (fun x => !(strOccursIn x.data v.data))),
            (mat h).normalizedNames⟩) := hmat
    by_cases hk : existing.filter (fun x => !(strOccursIn x.data v.data)) = []
    · rw [if_pos hk] at hmat2
      refine ⟨?_, ?_, ?_, ?_⟩
      · simp only [HttpHeaders.getAll]
        rw [hmat2, hg]
        simp [stDeleteKey, mapGet_mapDelete_self, hk]
      · intro m hm
        simp only [HttpHeaders.getAll]
        rw [hmat2]
        simp [stDeleteKey, mapGet_mapDelete_ne _ _ _ hm]
      · intro hnone
        rw [HttpHeaders.getAll, hg] at hnone
        exact absurd hnone (by simp)
      · intro vs hvs
        rw [HttpHeaders.getAll, hg] at hvs
        obtain rfl : existing = vs := by injection hvs
        rw [hmat2]
        simp [stDeleteKey, hk]
    · rw [if_neg hk] at hmat2
      refine ⟨?_, ?_, ?_, ?_⟩
      · simp only [HttpHeaders.getAll]
        rw [hmat2, hg]
        simp [mapGet_mapSet_self, hk]
      · intro m hm
        simp only [HttpHeaders.getAll]
        rw [hmat2]
        simp [mapGet_mapSet_ne _ _ _ _ hm]
      · intro hnone
        rw [HttpHeaders.getAll, hg] at hnone
        exact absurd hnone (by simp)
      · intro vs hvs
        rw [HttpHeaders.getAll, hg] at hvs
        obtain rfl : existing = vs := by injection hvs
        rw [hmat2]
        simp [hk]

/-- Witness for the amended C2 at a concrete collection, filter "b". -/
theorem C2_delete_filters_substrings_witness :
    ((HttpHeaders.ofRecord [("A", .list ["b", "c"])]).delete "A"
        (some (.str "b"))).getAll "A" =
      (match (HttpHeaders.ofRecord [("A", .list ["b", "c"])]).getAll "A" with
       | none => none
       | some vs =>
         let kept := vs.filter (fun x => !(strOccursIn x.data "b".data))
         if kept = [] then none else some kept) :=
  (C2_delete_filters_substrings (HttpHeaders.ofRecord [("A", .list ["b", "c"])])
    "A" "b" (by decide)).1

/-- Claim C9 fails in one clause: delete of a non-existent *value* is not
always a no-op, because the string filter removes entries occurring as
substrings of it.  Below "ab" is not among the stored values, yet the
delete removes "a". -/
theorem C9_claim_counterexample :
    ("ab" ∉ ["a", "x"]) ∧
    (HttpHeaders.ofRecord [("K", .list ["a", "x"])]).getAll "k" = some ["a", "x"] ∧
    ((HttpHeaders.ofRecord [("K", .list ["a", "x"])]).delete "K"
        (some (.str "ab"))).getAll "k" = some ["x"] := by
  decide

/-- Claim C9 (amended): the embedding of every operation is a total
function; reads of an unknown name return an absent result (`none`) rather
than failing; delete of a non-existent name is a silent no-op; delete with a
truthy value filter matching no stored entry (under the code's containment
test) is a silent no-op; and malformed raw lines (no colon, or colon first)
are skipped. -/
theorem C9_no_failures_and_noops :
    (∀ (h : HttpHeaders) (name : String), h.has name = false →
      h.get name = none ∧ h.getAll name = none) ∧
    (∀ (h : HttpHeaders) (name : String) (v : Option HVal), h.has name = false →
      mat (h.delete name v) = mat h) ∧
    (∀ (h : HttpHeaders) (name : String) (tv : HVal) (vs : List String),
      jsFalsyValue tv = false → h.getAll name = some vs →
      (∀ x ∈ vs, hvalContainsVal tv x = false) →
      (∀ m, (h.delete name (some tv)).getAll m = h.getAll m) ∧
      (h.delete name (some tv)).keys = h.keys) ∧
    (∀ (st : HeaderState) (line : List Char), splitAtFirstColon line = none →
      rawStep st line = st) ∧
    (∀ (st : HeaderState) (tail : List Char), rawStep st (':' :: tail) = st) := by
  refine ⟨?_, ?_, ?_, ?_, ?_⟩
  · intro h name hh
    have hg : mapGet (mat h).headers (jsToLower name) = none := by
      rw [HttpHeaders.has, mapHas] at hh
      cases hmg : mapGet (mat h).headers (jsToLower name) with
      | none => rfl
      | some x => rw [hmg] at hh; simp at hh
    exact ⟨by simp [HttpHeaders.get, hg], by simp [HttpHeaders.getAll, hg]⟩
  · intro h name v hh
    have hg : mapGet (mat h).headers (jsToLower name) = none := by
      rw [HttpHeaders.has, mapHas] at hh
      cases hmg : mapGet (mat h).headers (jsToLower name) with
      | none => rfl
      | some x => rw [hmg] at hh; simp at hh
    have hsync := (wf_mat h).1 (jsToLower name)
    have hgn : mapGet (mat h).normalizedNames (jsToLower name) = none := by
      rw [mapHas, mapHas, hg] at hsync
      cases hmg : mapGet (mat h).normalizedNames (jsToLower name) with
      | none => rfl
      | some x => rw [hmg] at hsync; simp at hsync
    have hdel : stDeleteKey (mat h) (jsToLower name) = mat h := by
      rw [stDeleteKey, mapDelete_of_get_none _ _ hg, mapDelete_of_get_none _ _ hgn]
    rw [HttpHeaders.delete, mat_clone]
    cases v with
    | none => exact hdel
    | some tv =>
      by_cases hf : jsFalsyValue tv
      · simp only [applyUpdate, hf, eq_self_iff_true, if_true]
        exact hdel
      · simp only [applyUpdate, hf, Bool.false_eq_true, if_false, hg]
  · intro h name tv vs hf hvs hall
    have hg : mapGet (mat h).headers (jsToLower name) = some vs := hvs
    have hkeep : vs.filter (fun x => !(hvalContainsVal tv x)) = vs :=
      List.filter_eq_self.mpr (fun a ha => by simp [hall a ha])
    have hne : vs ≠ [] := (wf_mat h).2 (jsToLower name, vs) (mem_of_mapGet_eq_some hg)
    have hmat2 : mat (h.delete name (some tv)) =
        ⟨mapSet (mat h).headers (jsToLower name)
           (vs.filter (fun x => !(hvalContainsVal tv x))), (mat h).normalizedNames⟩ := by
      rw [HttpHeaders.delete, mat_clone]
      simp only [applyUpdate, hf, Bool.false_eq_true, if_false, hg]
      rw [if_neg (by rw [hkeep]; exact hne)]
    constructor
    · intro m
      by_cases hm : jsToLower m = jsToLower name
      · simp only [HttpHeaders.getAll, hmat2, hm]
        rw [mapGet_mapSet_self, hkeep, hg]
      · simp only [HttpHeaders.getAll, hmat2]
        rw [mapGet_mapSet_ne _ _ _ _ hm]
    · simp only [HttpHeaders.keys, hmat2]
  · intro st line hcol
    simp [rawStep, hcol]
  · intro st tail
    simp [rawStep, splitAtFirstColon]

/-- Witness for the amended C9: reads of an unknown name on the empty
collection. -/
theorem C9_no_failures_and_noops_witness :
    HttpHeaders.emptyH.get "missing" = none ∧
    HttpHeaders.emptyH.getAll "missing" = none :=
  C9_no_failures_and_noops.1 HttpHeaders.emptyH "missing" (by decide)

/-- Claim C1 is violated by the code, against the documented immutability of
the class: `copyFrom` stores the parent array references into the fork, and
the append branch of `applyUpdate` then does `base.push(...value)` on the
shared array, so materializing the fork extends the value list held by the
receiver in place.  In the trace below, `h1` is built from "A: 1" and read
(yielding `["1"]`), `h2 = h1.append("A", "2")` is created and read (yielding
`["1", "2"]`), and a second read of `h1` then yields `["1", "2"]`, not the
`["1"]` the claim requires. -/
theorem C1_append_mutates_receiver :
    (let w0 : Heap.World := ⟨[], []⟩
     let a1 := Heap.newHttpHeaders w0 (some (.inl "A: 1"))
     let r1 := Heap.getAllOp 9 a1.1 a1.2 "a"
     let a2 := Heap.appendOp r1.1 a1.2 "A" (.str "2")
     let r2 := Heap.getAllOp 9 a2.1 a2.2 "a"
     let r3 := Heap.getAllOp 9 r2.1 a1.2 "a"
     r1.2 = some ["1"] ∧ r2.2 = some ["1", "2"] ∧
       r3.2 = some ["1", "2"] ∧ r3.2 ≠ r1.2) := by
  decide
